import Mathlib

/-!
Verification of the inverted-index / phrase-query pipeline from
`IR_InvertedMatrix_Workshop.ipynb`.

The index is a nested mapping `term -> doc_id -> list of positions`,
embedded here as association lists that preserve insertion order (matching
Python dict semantics).  `phrase_in_doc` can raise an `IndexError` when the
phrase token list is empty (`positions_lists[0]` on an empty list); we model
fallibility with `Option Bool`, where `none` stands for the raised exception.
The tokenizer/normalizer is a pluggable parameter (`f : String → List String`)
wherever the source allows either `basic_tokenizer` or `normalize_tokens`;
`basic_tokenizer` (lowercase, strip non-alphanumeric-non-whitespace, split on
whitespace runs) is embedded concretely for the notebook's test cell.
-/

namespace InvIdx

/-- Per-term postings: association list from document id to position list.
Document ids are `Int` because Python callers may pass any integer to
`phrase_in_doc`, while the builder itself only inserts ids from `enumerate`. -/
abbrev Postings := List (Int × List Nat)

/-- The inverted index: association list from term to its postings. -/
abbrev Index := List (String × Postings)

/-- `doc_id in postings` / `postings[doc_id]` lookup. -/
def lookupDoc : Postings → Int → Option (List Nat)
  | [], _ => none
  | (d0, l) :: rest, d => if d0 = d then some l else lookupDoc rest d

/-- `token in inverted_index` / `inverted_index[token]` lookup. -/
def lookupTok : Index → String → Option Postings
  | [], _ => none
  | (t0, ps) :: rest, t => if t0 = t then some ps else lookupTok rest t

/-- Combined lookup: `inverted_index[token][doc_id]`, `none` when the token is
absent from the index or the doc id absent from the token's postings. -/
def lookupPost (idx : Index) (t : String) (d : Int) : Option (List Nat) :=
  match lookupTok idx t with
  | none => none
  | some ps => lookupDoc ps d

/-- One builder step at the postings level: create the doc entry if absent, then
append the position (`inverted_index[token][doc_id].append(pos)`). -/
def insertPosting : Postings → Int → Nat → Postings
  | [], d, p => [(d, [p])]
  | (d0, l) :: rest, d, p =>
      if d0 = d then (d0, l ++ [p]) :: rest else (d0, l) :: insertPosting rest d p

/-- One builder step at the index level: create the token entry if absent, then
insert the position into its postings. -/
def insertTok : Index → String → Int → Nat → Index
  | [], t, d, p => [(t, [(d, [p])])]
  | (t0, ps) :: rest, t, d, p =>
      if t0 = t then (t0, insertPosting ps d p) :: rest
      else (t0, ps) :: insertTok rest t d p

/-- The inner loop `for pos, token in enumerate(tokens)` of the builder,
starting at position `pos`. -/
def indexTokens : Index → Int → List String → Nat → Index
  | idx, _, [], _ => idx
  | idx, d, tok :: rest, pos => indexTokens (insertTok idx tok d pos) d rest (pos + 1)

/-- The outer loop `for doc_id, text in enumerate(docs)` of the builder. -/
def buildAux (f : String → List String) : Index → Nat → List String → Index
  | idx, _, [] => idx
  | idx, d, doc :: rest => buildAux f (indexTokens idx (d : Int) (f doc) 0) (d + 1) rest

/-- `build_inverted_index(docs)` (test-cell variant), parameterized by the
tokenizer used for documents. -/
def build_inverted_index (f : String → List String) (docs : List String) : Index :=
  buildAux f [] 0 docs

/-- The Step-4 builder additionally threads a `seen_in_doc` set through the
token loop (`seen_in_doc.add(token)`); the set is never read.  We model it as a
duplicate-free list accumulated alongside the index. -/
def indexTokensSeen : Index → List String → Int → List String → Nat → Index × List String
  | idx, seen, _, [], _ => (idx, seen)
  | idx, seen, d, tok :: rest, pos =>
      indexTokensSeen (insertTok idx tok d pos)
        (if tok ∈ seen then seen else tok :: seen) d rest (pos + 1)

/-- Outer loop of the Step-4 builder: `seen_in_doc` starts empty for each
document and is discarded at the end of the document. -/
def buildAuxSeen (f : String → List String) : Index → Nat → List String → Index
  | idx, _, [] => idx
  | idx, d, doc :: rest =>
      buildAuxSeen f (indexTokensSeen idx [] (d : Int) (f doc) 0).1 (d + 1) rest

/-- `build_inverted_index(docs)` (Step-4 variant with the dead `seen_in_doc`
set), parameterized by the tokenizer. -/
def build_inverted_index_step4 (f : String → List String) (docs : List String) : Index :=
  buildAuxSeen f [] 0 docs

/-- The first loop of `phrase_in_doc`: collect `inverted_index[token][doc_id]`
for each phrase token; `none` models the early `return False` taken when a
token is missing from the index or from this document's postings. -/
def collectPositions (idx : Index) (d : Int) : List String → Option (List (List Nat))
  | [] => some []
  | tok :: rest =>
      match lookupPost idx tok d with
      | none => none
      | some l =>
          match collectPositions idx d rest with
          | none => none
          | some ls => some (l :: ls)

/-- `phrase_in_doc(inverted_index, phrase_tokens, doc_id)`.  Result `none`
models the `IndexError` raised by `positions_lists[0]` when `phrase_tokens`
is empty; otherwise `some b` is the returned boolean. -/
def phrase_in_doc (idx : Index) (phrase_tokens : List String) (d : Int) : Option Bool :=
  match collectPositions idx d phrase_tokens with
  | none => some false
  | some positions_lists =>
      match positions_lists with
      | [] => none
      | first_positions :: later =>
          some (first_positions.any (fun s =>
            (List.range' 1 later.length).all (fun off =>
              decide ((s + off) ∈ (first_positions :: later).getD off []))))

/-- The loop of `phrase_search` over `range(len(docs))`; an exception raised
by `phrase_in_doc` aborts the whole loop (`none`). -/
def searchLoop (idx : Index) (toks : List String) : List Int → Option (List Int)
  | [] => some []
  | d :: rest =>
      match phrase_in_doc idx toks d with
      | none => none
      | some b =>
          match searchLoop idx toks rest with
          | none => none
          | some ms => some (if b then d :: ms else ms)

/-- `phrase_search(inverted_index, phrase, docs)`, parameterized by the
tokenizer applied to the phrase (`basic_tokenizer` in the test cell,
`normalize_tokens` in Step 4). -/
def phrase_search (f : String → List String) (idx : Index) (phrase : String)
    (docs : List String) : Option (List Int) :=
  searchLoop idx (f phrase) ((List.range docs.length).map Int.ofNat)

/-- Python `\s` on ASCII input: space, tab, newline, carriage return,
vertical tab, form feed. -/
def isPySpace (c : Char) : Bool :=
  c == ' ' || c == '\t' || c == '\n' || c == '\r' ||
  c == Char.ofNat 11 || c == Char.ofNat 12

/-- Characters kept by `re.sub(r'[^a-z0-9\s]', '', text)` after lowercasing. -/
def isKept (c : Char) : Bool :=
  ('a' ≤ c && c ≤ 'z') || ('0' ≤ c && c ≤ '9') || isPySpace c

/-- ASCII lowering, as `str.lower()` acts on ASCII text. -/
def lowerChar (c : Char) : Char :=
  if 'A' ≤ c && c ≤ 'Z' then Char.ofNat (c.toNat + 32) else c

/-- `str.split()`: split on whitespace runs, dropping empty pieces.
`acc` holds the current word, reversed. -/
def splitWsAux : List Char → List Char → List String
  | [], acc => match acc with | [] => [] | _ => [String.mk acc.reverse]
  | c :: cs, acc =>
      if isPySpace c then
        match acc with
        | [] => splitWsAux cs []
        | _ => String.mk acc.reverse :: splitWsAux cs []
      else splitWsAux cs (c :: acc)

/-- `basic_tokenizer(text)`: lowercase, delete characters outside
`[a-z0-9\s]`, split on whitespace. -/
def basic_tokenizer (text : String) : List String :=
  splitWsAux ((text.data.map lowerChar).filter isKept) []

/-- The zero-based offsets, counted from `s`, at which term `t` occurs in a
token list (the reference position list for one document). -/
def offsetsOf (t : String) : List String → Nat → List Nat
  | [], _ => []
  | x :: xs, s =>
      if x = t then s :: offsetsOf t xs (s + 1) else offsetsOf t xs (s + 1)

/-- The four sample documents of the notebook's test cell. -/
def testDocs : List String :=
  ["Machine learning is fascinating.",
   "Deep learning is a subset of machine learning.",
   "Artificial intelligence includes machine learning.",
   "Learning about machine algorithms."]

/-- The index the test cell builds from `testDocs` with `basic_tokenizer`. -/
def testIndex : Index := build_inverted_index basic_tokenizer testDocs

example : basic_tokenizer "Machine learning is fascinating." =
    ["machine", "learning", "is", "fascinating"] := by decide

example : basic_tokenizer "." = [] := by decide

example : lookupPost testIndex "learning" 1 = some [1, 7] := by decide

example : phrase_in_doc testIndex [] 0 = none := by decide

lemma lookupDoc_insertPosting (ps : Postings) (d : Int) (p : Nat) (d' : Int) :
    lookupDoc (insertPosting ps d p) d' =
      if d' = d then some ((lookupDoc ps d).getD [] ++ [p]) else lookupDoc ps d' := by
  induction ps with
  | nil =>
      by_cases h : d' = d
      · simp [insertPosting, lookupDoc, h]
      · simp [insertPosting, lookupDoc, h, Ne.symm h]
  | cons hd rest ih =>
      obtain ⟨d0, l⟩ := hd
      by_cases h0 : d0 = d
      · subst h0
        by_cases h : d' = d0
        · simp [insertPosting, lookupDoc, h]
        · simp [insertPosting, lookupDoc, h, Ne.symm h]
      · by_cases h : d0 = d'
        · subst h
          simp [insertPosting, lookupDoc, h0, Ne.symm h0]
        · simp [insertPosting, lookupDoc, h0, h, ih]

lemma lookupTok_insertTok (idx : Index) (t : String) (d : Int) (p : Nat) (t' : String) :
    lookupTok (insertTok idx t d p) t' =
      if t' = t then some (insertPosting ((lookupTok idx t).getD []) d p)
      else lookupTok idx t' := by
  induction idx with
  | nil =>
      by_cases h : t' = t
      · simp [insertTok, lookupTok, insertPosting, h]
      · simp [insertTok, lookupTok, insertPosting, h, Ne.symm h]
  | cons hd rest ih =>
      obtain ⟨t0, ps⟩ := hd
      by_cases h0 : t0 = t
      · subst h0
        by_cases h : t' = t0
        · simp [insertTok, lookupTok, h]
        · simp [insertTok, lookupTok, h, Ne.symm h]
      · by_cases h : t0 = t'
        · subst h
          simp [insertTok, lookupTok, h0, Ne.symm h0]
        · simp [insertTok, lookupTok, h0, h, ih]

lemma lookupPost_insertTok (idx : Index) (t : String) (d : Int) (p : Nat)
    (t' : String) (d' : Int) :
    lookupPost (insertTok idx t d p) t' d' =
      if t' = t ∧ d' = d then some ((lookupPost idx t d).getD [] ++ [p])
      else lookupPost idx t' d' := by
  by_cases ht : t' = t
  · subst ht
    cases h : lookupTok idx t' with
    | none =>
        simp only [lookupPost, lookupTok_insertTok, lookupDoc_insertPosting, h, lookupDoc]
        by_cases hd : d' = d
        · simp [hd, lookupDoc]
        · simp [hd, Ne.symm hd, lookupDoc]
    | some ps =>
        simp [lookupPost, lookupTok_insertTok, lookupDoc_insertPosting, h]
  · simp [lookupPost, lookupTok_insertTok, ht]

lemma offsetsOf_eq_nil {t : String} {xs : List String} (h : t ∉ xs) (s : Nat) :
    offsetsOf t xs s = [] := by
  induction xs generalizing s with
  | nil => rfl
  | cons x xs ih =>
      have hx : ¬ (x = t) := fun e => h (e ▸ List.mem_cons_self x xs)
      simp only [offsetsOf, if_neg hx]
      exact ih (fun hm => h (List.mem_cons_of_mem _ hm)) (s + 1)

lemma lookupPost_indexTokens (toks : List String) (idx : Index) (d : Int) (s : Nat)
    (t : String) (d' : Int) :
    lookupPost (indexTokens idx d toks s) t d' =
      if d' = d ∧ t ∈ toks then
        some ((lookupPost idx t d).getD [] ++ offsetsOf t toks s)
      else lookupPost idx t d' := by
  induction toks generalizing idx s with
  | nil => simp [indexTokens]
  | cons x xs ih =>
      simp only [indexTokens]
      rw [ih, lookupPost_insertTok, lookupPost_insertTok]
      by_cases hd : d' = d
      · subst hd
        by_cases htx : t = x
        · subst htx
          by_cases hmx : t ∈ xs
          · simp [hmx, offsetsOf, List.append_assoc]
          · simp [hmx, offsetsOf, offsetsOf_eq_nil hmx]
        · simp [offsetsOf, htx, Ne.symm htx, List.mem_cons]
      · simp [hd]

lemma lookupPost_buildAux_out (docs : List String) (f : String → List String)
    (idx : Index) (n : Nat) (t : String) (d : Int)
    (hd : d < (n : Int) ∨ (n : Int) + docs.length ≤ d) :
    lookupPost (buildAux f idx n docs) t d = lookupPost idx t d := by
  induction docs generalizing idx n with
  | nil => rfl
  | cons doc rest ih =>
      simp only [buildAux]
      rw [ih _ (n + 1)]
      · rw [lookupPost_indexTokens, if_neg]
        rintro ⟨h1, _⟩
        simp only [List.length_cons] at hd
        push_cast at hd
        omega
      · simp only [List.length_cons] at hd
        push_cast at hd ⊢
        omega

lemma lookupPost_buildAux_in (docs : List String) (f : String → List String)
    (idx : Index) (n : Nat) (t : String)
    (hidx : ∀ d' : Int, (n : Int) ≤ d' → lookupPost idx t d' = none)
    (k : Nat) (hk : k < docs.length) :
    lookupPost (buildAux f idx n docs) t ((n + k : Nat) : Int) =
      if t ∈ f (docs.getD k "") then
        some (offsetsOf t (f (docs.getD k "")) 0)
      else none := by
  induction docs generalizing idx n k with
  | nil => exact absurd hk (Nat.not_lt_zero k)
  | cons doc rest ih =>
      simp only [buildAux]
      cases k with
      | zero =>
          rw [lookupPost_buildAux_out rest f _ (n + 1) t _ (by push_cast; omega)]
          rw [lookupPost_indexTokens]
          have h0 : ((n + 0 : Nat) : Int) = (n : Int) := by push_cast; omega
          rw [h0, hidx _ (le_refl _)]
          simp only [List.getD_cons_zero]
          by_cases hm : t ∈ f doc
          · simp [hm]
          · simp [hm]
      | succ k' =>
          have hrw : ((n + (k' + 1) : Nat) : Int) = (((n + 1) + k' : Nat) : Int) := by
            push_cast; omega
          rw [hrw, ih _ (n + 1)]
          · simp
          · intro d' hd'
            rw [lookupPost_indexTokens, if_neg]
            · exact hidx d' (by push_cast at hd' ⊢; omega)
            · rintro ⟨h1, _⟩
              push_cast at hd'
              omega
          · simpa using hk

lemma lookupPost_nil (t : String) (d : Int) : lookupPost [] t d = none := rfl

lemma lookupPost_build_in (f : String → List String) (docs : List String) (t : String)
    (k : Nat) (hk : k < docs.length) :
    lookupPost (build_inverted_index f docs) t (k : Int) =
      if t ∈ f (docs.getD k "") then
        some (offsetsOf t (f (docs.getD k "")) 0)
      else none := by
  have h := lookupPost_buildAux_in docs f [] 0 t (fun d' _ => lookupPost_nil t d') k hk
  simpa using h

lemma lookupPost_build_out (f : String → List String) (docs : List String) (t : String)
    (d : Int) (hd : d < 0 ∨ (docs.length : Int) ≤ d) :
    lookupPost (build_inverted_index f docs) t d = none := by
  rw [build_inverted_index]
  have h := lookupPost_buildAux_out docs f [] 0 t d (by push_cast; omega)
  rw [h, lookupPost_nil]

lemma lookupTok_indexTokens (toks : List String) (idx : Index) (d : Int) (s : Nat)
    (t : String) :
    lookupTok (indexTokens idx d toks s) t = none ↔
      (t ∉ toks ∧ lookupTok idx t = none) := by
  induction toks generalizing idx s with
  | nil => simp [indexTokens]
  | cons x xs ih =>
      simp only [indexTokens]
      rw [ih, lookupTok_insertTok]
      by_cases htx : t = x
      · subst htx
        simp
      · simp [htx, List.mem_cons]

lemma lookupTok_buildAux (docs : List String) (f : String → List String)
    (idx : Index) (n : Nat) (t : String) :
    lookupTok (buildAux f idx n docs) t = none ↔
      ((∀ doc ∈ docs, t ∉ f doc) ∧ lookupTok idx t = none) := by
  induction docs generalizing idx n with
  | nil => simp [buildAux]
  | cons doc rest ih =>
      simp only [buildAux]
      rw [ih, lookupTok_indexTokens]
      simp only [List.mem_cons]
      constructor
      · rintro ⟨hrest, hdoc, hnone⟩
        exact ⟨fun d hd => hd.elim (fun e => e ▸ hdoc) (fun hm => hrest d hm), hnone⟩
      · rintro ⟨hall, hnone⟩
        exact ⟨fun d hd => hall d (Or.inr hd), hall doc (Or.inl rfl), hnone⟩

lemma lookupTok_build_ne_none (f : String → List String) (docs : List String)
    (t : String) :
    lookupTok (build_inverted_index f docs) t ≠ none ↔ ∃ doc ∈ docs, t ∈ f doc := by
  rw [build_inverted_index]
  rw [ne_eq, lookupTok_buildAux]
  simp [lookupTok]

lemma mem_offsetsOf {t : String} (xs : List String) (s p : Nat) :
    p ∈ offsetsOf t xs s ↔ (s ≤ p ∧ xs.get? (p - s) = some t) := by
  induction xs generalizing s with
  | nil => simp [offsetsOf]
  | cons x xs ih =>
      by_cases hx : x = t
      · simp only [offsetsOf, if_pos hx, List.mem_cons, ih]
        constructor
        · rintro (rfl | ⟨h1, h2⟩)
          · refine ⟨le_refl _, ?_⟩
            simp [hx]
          · refine ⟨by omega, ?_⟩
            have he : p - s = (p - (s + 1)) + 1 := by omega
            rw [he]
            simpa using h2
        · rintro ⟨h1, h2⟩
          by_cases hp : p = s
          · exact Or.inl hp
          · refine Or.inr ⟨by omega, ?_⟩
            have he : p - s = (p - (s + 1)) + 1 := by omega
            rw [he] at h2
            simpa using h2
      · simp only [offsetsOf, if_neg hx, ih]
        constructor
        · rintro ⟨h1, h2⟩
          refine ⟨by omega, ?_⟩
          have he : p - s = (p - (s + 1)) + 1 := by omega
          rw [he]
          simpa using h2
        · rintro ⟨h1, h2⟩
          by_cases hp : p = s
          · subst hp
            rw [Nat.sub_self] at h2
            simp only [List.get?] at h2
            exact absurd (Option.some.inj h2) hx
          · refine ⟨by omega, ?_⟩
            have he : p - s = (p - (s + 1)) + 1 := by omega
            rw [he] at h2
            simpa using h2

lemma offsetsOf_ge {t : String} (xs : List String) (s : Nat) :
    ∀ p ∈ offsetsOf t xs s, s ≤ p := by
  induction xs generalizing s with
  | nil => simp [offsetsOf]
  | cons x xs ih =>
      intro p hp
      simp only [offsetsOf] at hp
      by_cases hx : x = t
      · rw [if_pos hx] at hp
        rcases List.mem_cons.1 hp with rfl | hp'
        · exact le_refl _
        · exact le_trans (Nat.le_succ s) (ih (s + 1) p hp')
      · rw [if_neg hx] at hp
        exact le_trans (Nat.le_succ s) (ih (s + 1) p hp)

lemma offsetsOf_sorted {t : String} (xs : List String) (s : Nat) :
    List.Pairwise (· < ·) (offsetsOf t xs s) := by
  induction xs generalizing s with
  | nil => simp [offsetsOf]
  | cons x xs ih =>
      by_cases hx : x = t
      · simp only [offsetsOf, if_pos hx]
        exact List.Pairwise.cons
          (fun p hp => lt_of_lt_of_le (Nat.lt_succ_self s) (offsetsOf_ge xs (s + 1) p hp))
          (ih (s + 1))
      · simp only [offsetsOf, if_neg hx]
        exact ih (s + 1)

lemma collectPositions_none {idx : Index} {d : Int} {toks : List String}
    (h : ∃ t ∈ toks, lookupPost idx t d = none) :
    collectPositions idx d toks = none := by
  induction toks with
  | nil => simp at h
  | cons x xs ih =>
      rcases h with ⟨t, ht, hnone⟩
      rcases List.mem_cons.1 ht with rfl | hmem
      · simp [collectPositions, hnone]
      · cases hx : lookupPost idx x d with
        | none => simp [collectPositions, hx]
        | some l => simp [collectPositions, hx, ih ⟨t, hmem, hnone⟩]

lemma collectPositions_some {idx : Index} {d : Int} {toks : List String}
    (h : ∀ t ∈ toks, lookupPost idx t d ≠ none) :
    collectPositions idx d toks =
      some (toks.map (fun t => (lookupPost idx t d).getD [])) := by
  induction toks with
  | nil => rfl
  | cons x xs ih =>
      cases hx : lookupPost idx x d with
      | none => exact absurd hx (h x (List.mem_cons_self x xs))
      | some l =>
          simp [collectPositions, hx, ih (fun t ht => h t (List.mem_cons_of_mem _ ht))]

lemma phrase_in_doc_false_of_missing {idx : Index} {toks : List String} {d : Int}
    (h : ∃ t ∈ toks, lookupPost idx t d = none) :
    phrase_in_doc idx toks d = some false := by
  simp [phrase_in_doc, collectPositions_none h]

lemma searchLoop_some {idx : Index} {toks : List String} {ds : List Int} {res : List Int}
    (h : searchLoop idx toks ds = some res) :
    res = ds.filter (fun d => decide (phrase_in_doc idx toks d = some true)) := by
  induction ds generalizing res with
  | nil =>
      simp only [searchLoop, Option.some.injEq] at h
      simp [h.symm]
  | cons d rest ih =>
      simp only [searchLoop] at h
      cases hd : phrase_in_doc idx toks d with
      | none => simp [hd] at h
      | some b =>
          rw [hd] at h
          cases hr : searchLoop idx toks rest with
          | none => simp [hr] at h
          | some ms =>
              rw [hr] at h
              simp only [Option.some.injEq] at h
              subst h
              rw [List.filter_cons]
              cases b with
              | true => simp [hd, ih hr]
              | false => simp [hd, ih hr]

lemma searchLoop_all_false {idx : Index} {toks : List String} {ds : List Int}
    (h : ∀ d ∈ ds, phrase_in_doc idx toks d = some false) :
    searchLoop idx toks ds = some [] := by
  induction ds with
  | nil => rfl
  | cons d rest ih =>
      simp [searchLoop, h d (List.mem_cons_self d rest),
        ih (fun d' hd' => h d' (List.mem_cons_of_mem _ hd'))]

lemma getD_map_getD (g : String → List Nat) {ts : List String} {k : Nat}
    (hk : k < ts.length) :
    (ts.map g).getD k [] = g (ts.getD k "") := by
  induction ts generalizing k with
  | nil => simp at hk
  | cons x xs ih =>
      cases k with
      | zero => simp
      | succ k' =>
          simp only [List.map_cons, List.getD_cons_succ]
          exact ih (by simpa using hk)

lemma phrase_in_doc_present (idx : Index) (t0 : String) (ts : List String) (d : Int)
    (h : ∀ t ∈ t0 :: ts, lookupPost idx t d ≠ none) :
    phrase_in_doc idx (t0 :: ts) d = some true ↔
      ∃ s ∈ (lookupPost idx t0 d).getD [],
        ∀ k < ts.length,
          s + (k + 1) ∈ (lookupPost idx (ts.getD k "") d).getD [] := by
  simp only [phrase_in_doc, collectPositions_some h, List.map_cons, Option.some.injEq,
    List.any_eq_true, List.all_eq_true, List.mem_range'_1, List.length_map,
    decide_eq_true_eq]
  constructor
  · rintro ⟨s, hs, hall⟩
    refine ⟨s, hs, ?_⟩
    intro k hk
    have hh := hall (k + 1) ⟨by omega, by omega⟩
    rw [List.getD_cons_succ, getD_map_getD _ hk] at hh
    exact hh
  · rintro ⟨s, hs, hall⟩
    refine ⟨s, hs, ?_⟩
    rintro off ⟨h1, h2⟩
    obtain ⟨k, rfl⟩ : ∃ k, off = k + 1 := ⟨off - 1, by omega⟩
    rw [List.getD_cons_succ, getD_map_getD _ (by omega)]
    exact hall k (by omega)

lemma indexTokensSeen_fst (toks : List String) (idx : Index) (seen : List String)
    (d : Int) (pos : Nat) :
    (indexTokensSeen idx seen d toks pos).1 = indexTokens idx d toks pos := by
  induction toks generalizing idx seen pos with
  | nil => rfl
  | cons x xs ih =>
      simp only [indexTokensSeen, indexTokens]
      exact ih _ _ _

lemma buildAuxSeen_eq (docs : List String) (fA fB : String → List String)
    (h : ∀ doc ∈ docs, fA doc = fB doc) (idx : Index) (n : Nat) :
    buildAuxSeen fA idx n docs = buildAux fB idx n docs := by
  induction docs generalizing idx n with
  | nil => rfl
  | cons doc rest ih =>
      simp only [buildAuxSeen, buildAux]
      rw [indexTokensSeen_fst, h doc (List.mem_cons_self doc rest)]
      exact ih (fun d' hd' => h d' (List.mem_cons_of_mem _ hd')) _ _

/-- Claim C1 as the spec states it is false on the code: on the notebook's own
test corpus, a phrase whose normalized term sequence is empty (here `"."`,
which `basic_tokenizer` maps to `[]`) does not make `phrase_in_doc` return
`false` — it raises an `IndexError` (modelled as `none`) — and `phrase_search`
does not return an empty sequence but propagates the exception. -/
theorem c1_counterexample :
    phrase_in_doc testIndex [] 0 ≠ some false ∧
    phrase_search basic_tokenizer testIndex "." testDocs ≠ some [] := by
  decide

/-- Claim C1, amended: for every index and an empty normalized phrase,
`phrase_in_doc` raises (`none`) for every document id, and `phrase_search`
propagates the exception whenever the corpus is non-empty; only on an empty
corpus does `phrase_search` return the empty sequence. -/
theorem c1_empty_phrase_raises :
    (∀ (idx : Index) (d : Int), phrase_in_doc idx [] d = none) ∧
    (∀ (f : String → List String) (idx : Index) (phrase : String) (docs : List String),
      f phrase = [] → docs ≠ [] → phrase_search f idx phrase docs = none) ∧
    (∀ (f : String → List String) (idx : Index) (phrase : String),
      phrase_search f idx phrase [] = some []) := by
  refine ⟨fun idx d => rfl, ?_, fun f idx phrase => rfl⟩
  intro f idx phrase docs hf hdocs
  rw [phrase_search, hf]
  obtain ⟨d0, rest, hcons⟩ : ∃ d0 rest, docs = d0 :: rest := by
    cases docs with
    | nil => exact absurd rfl hdocs
    | cons a l => exact ⟨a, l, rfl⟩
  subst hcons
  simp only [List.length_cons, List.range_succ_eq_map, List.map_cons]
  simp [searchLoop, phrase_in_doc, collectPositions]

theorem c1_witness :
    phrase_search basic_tokenizer testIndex "." testDocs = none :=
  c1_empty_phrase_raises.2.1 basic_tokenizer testIndex "." testDocs (by decide)
    (by decide)

/-- Claim C2: for every tokenizer and document collection, a term is a key of
`build_inverted_index` exactly when it occurs in some document's normalized
token stream; for each in-range document id the combined lookup yields exactly
the ordered offsets of the term's occurrences in that document's stream (and
is absent when the term does not occur there); and membership in the stored
position list coincides with occurrence of the term at that offset. -/
theorem c2_build_index_characterization (f : String → List String)
    (docs : List String) (t : String) :
    (lookupTok (build_inverted_index f docs) t ≠ none ↔ ∃ doc ∈ docs, t ∈ f doc) ∧
    (∀ k : Nat, k < docs.length →
      lookupPost (build_inverted_index f docs) t (k : Int) =
        if t ∈ f (docs.getD k "") then
          some (offsetsOf t (f (docs.getD k "")) 0)
        else none) ∧
    (∀ k : Nat, k < docs.length → ∀ p : Nat,
      p ∈ (lookupPost (build_inverted_index f docs) t (k : Int)).getD [] ↔
        (f (docs.getD k "")).get? p = some t) := by
  refine ⟨lookupTok_build_ne_none f docs t, lookupPost_build_in f docs t, ?_⟩
  intro k hk p
  rw [lookupPost_build_in f docs t k hk]
  by_cases hm : t ∈ f (docs.getD k "")
  · rw [if_pos hm]
    simpa using mem_offsetsOf (f (docs.getD k "")) 0 p
  · rw [if_neg hm]
    simp only [Option.getD_none, List.not_mem_nil, false_iff]
    intro hc
    exact hm (List.get?_mem hc)

theorem c2_witness :
    lookupPost (build_inverted_index basic_tokenizer testDocs) "machine" ((0 : Nat) : Int) =
      if "machine" ∈ basic_tokenizer (testDocs.getD 0 "") then
        some (offsetsOf "machine" (basic_tokenizer (testDocs.getD 0 "")) 0)
      else none :=
  (c2_build_index_characterization basic_tokenizer testDocs "machine").2.1 0 (by decide)

/-- Claim C3: when every term of a non-empty phrase has a posting list for the
given document, `phrase_in_doc` returns `true` exactly when some anchor
position `s` in the first term's position list is such that each subsequent
term at 1-based offset `k+1` has `s + (k+1)` in its position list. -/
theorem c3_phrase_anchor (idx : Index) (t0 : String) (ts : List String) (d : Int)
    (h : ∀ t ∈ t0 :: ts, lookupPost idx t d ≠ none) :
    phrase_in_doc idx (t0 :: ts) d = some true ↔
      ∃ s ∈ (lookupPost idx t0 d).getD [],
        ∀ k < ts.length,
          s + (k + 1) ∈ (lookupPost idx (ts.getD k "") d).getD [] :=
  phrase_in_doc_present idx t0 ts d h

theorem c3_witness :
    phrase_in_doc testIndex ["machine", "learning"] 1 = some true ↔
      ∃ s ∈ (lookupPost testIndex "machine" 1).getD [],
        ∀ k < (["learning"] : List String).length,
          s + (k + 1) ∈
            (lookupPost testIndex ((["learning"] : List String).getD k "") 1).getD [] :=
  c3_phrase_anchor testIndex "machine" ["learning"] 1 (by decide)

/-- Claim C4: on the notebook's four test documents, `phrase_search` with
`basic_tokenizer` returns exactly `[0, 1, 2]` for "machine learning" and
exactly `[1]` for "deep learning". -/
theorem c4_test_queries :
    phrase_search basic_tokenizer testIndex "machine learning" testDocs =
      some [0, 1, 2] ∧
    phrase_search basic_tokenizer testIndex "deep learning" testDocs =
      some [1] := by
  decide

/-- Claim C5: whenever `phrase_search` returns a sequence, it is the ascending
enumeration (a filter of `[0, doc_count)` in order) of exactly those document
ids on which `phrase_in_doc` holds, hence strictly ascending, duplicate-free,
and contained in `[0, doc_count)`. -/
theorem c5_search_sorted (f : String → List String) (idx : Index) (phrase : String)
    (docs : List String) (res : List Int)
    (h : phrase_search f idx phrase docs = some res) :
    res = ((List.range docs.length).map Int.ofNat).filter
        (fun d => decide (phrase_in_doc idx (f phrase) d = some true)) ∧
    List.Pairwise (· < ·) res ∧
    ∀ d ∈ res, 0 ≤ d ∧ d < (docs.length : Int) := by
  have hres := searchLoop_some h
  have hsorted : List.Pairwise (· < ·) ((List.range docs.length).map Int.ofNat) := by
    rw [List.pairwise_map]
    exact (List.pairwise_lt_range _).imp (fun hab => Int.ofNat_lt.2 hab)
  refine ⟨hres, ?_, ?_⟩
  · rw [hres]
    exact hsorted.filter _
  · rw [hres]
    intro d hd
    have hd' := List.mem_of_mem_filter hd
    rcases List.mem_map.1 hd' with ⟨a, ha, rfl⟩
    have hlt := List.mem_range.1 ha
    exact ⟨Int.ofNat_le.2 (Nat.zero_le a), Int.ofNat_lt.2 hlt⟩

theorem c5_witness :
    ([0, 1, 2] : List Int) = ((List.range testDocs.length).map Int.ofNat).filter
        (fun d => decide (phrase_in_doc testIndex
          (basic_tokenizer "machine learning") d = some true)) ∧
    List.Pairwise (· < ·) ([0, 1, 2] : List Int) ∧
    ∀ d ∈ ([0, 1, 2] : List Int), 0 ≤ d ∧ d < (testDocs.length : Int) :=
  c5_search_sorted basic_tokenizer testIndex "machine learning" testDocs [0, 1, 2]
    (by decide)

/-- Claim C6: for every index, term and document id, the single-term phrase
`[t]` is contained exactly when `t` has a non-empty posting list for that
document (single-term degeneracy law); in particular no error is possible. -/
theorem c6_single_term (idx : Index) (t : String) (d : Int) :
    phrase_in_doc idx [t] d = some true ↔ (lookupPost idx t d).getD [] ≠ [] := by
  cases hx : lookupPost idx t d with
  | none => simp [phrase_in_doc, collectPositions, hx]
  | some l =>
      cases l with
      | nil => simp [phrase_in_doc, collectPositions, hx]
      | cons a as => simp [phrase_in_doc, collectPositions, hx]

/-- Claim C7: a phrase term absent from the index entirely, or absent from the
given document's postings, makes `phrase_in_doc` return `false` (not an
error); a term absent from the index entirely makes `phrase_search` return
the empty sequence on any corpus. -/
theorem c7_unknown_term (idx : Index) (toks : List String) :
    (∀ d : Int, (∃ t ∈ toks, lookupPost idx t d = none) →
      phrase_in_doc idx toks d = some false) ∧
    (∀ (f : String → List String) (phrase : String) (docs : List String),
      (∃ t ∈ toks, lookupTok idx t = none) → f phrase = toks →
      phrase_search f idx phrase docs = some []) := by
  constructor
  · intro d h
    exact phrase_in_doc_false_of_missing h
  · rintro f phrase docs ⟨t, ht, hnone⟩ hf
    rw [phrase_search, hf]
    apply searchLoop_all_false
    intro d hd
    exact phrase_in_doc_false_of_missing ⟨t, ht, by simp [lookupPost, hnone]⟩

theorem c7_witness :
    phrase_in_doc testIndex ["unknownterm"] 0 = some false :=
  (c7_unknown_term testIndex ["unknownterm"]).1 0 (by decide)

/-- Claim C8: every position list stored by `build_inverted_index` is strictly
increasing (positions are appended in per-document scan order with no
deduplication). -/
theorem c8_positions_strictly_increasing (f : String → List String)
    (docs : List String) (t : String) (d : Int) (l : List Nat)
    (h : lookupPost (build_inverted_index f docs) t d = some l) :
    List.Pairwise (· < ·) l := by
  by_cases hd : d < 0 ∨ (docs.length : Int) ≤ d
  · rw [lookupPost_build_out f docs t d hd] at h
    exact absurd h (by simp)
  · push_neg at hd
    obtain ⟨h0, hlen⟩ := hd
    obtain ⟨k, rfl⟩ : ∃ k : Nat, d = (k : Int) := ⟨d.toNat, (Int.toNat_of_nonneg h0).symm⟩
    rw [lookupPost_build_in f docs t k (by exact_mod_cast hlen)] at h
    by_cases hm : t ∈ f (docs.getD k "")
    · rw [if_pos hm] at h
      obtain rfl : l = offsetsOf t (f (docs.getD k "")) 0 := (Option.some.inj h).symm
      exact offsetsOf_sorted _ _
    · rw [if_neg hm] at h
      exact absurd h (by simp)

theorem c8_witness : List.Pairwise (· < ·) ([1, 7] : List Nat) :=
  c8_positions_strictly_increasing basic_tokenizer testDocs "learning" 1 [1, 7]
    (by decide)

/-- Claim C9: on an index built from `docs`, any document id outside
`[0, docs.length)` — including negative ids — makes `phrase_in_doc` on a
non-empty phrase return `false` rather than fail, because no term's postings
contain such an id. -/
theorem c9_out_of_range (f : String → List String) (docs : List String)
    (t0 : String) (ts : List String) (d : Int)
    (hd : d < 0 ∨ (docs.length : Int) ≤ d) :
    phrase_in_doc (build_inverted_index f docs) (t0 :: ts) d = some false :=
  phrase_in_doc_false_of_missing
    ⟨t0, List.mem_cons_self t0 ts, lookupPost_build_out f docs t0 d hd⟩

theorem c9_witness :
    phrase_in_doc (build_inverted_index basic_tokenizer testDocs)
      ["machine", "learning"] (-1) = some false :=
  c9_out_of_range basic_tokenizer testDocs "machine" ["learning"] (-1) (by decide)

/-- Claim C10: the Step-4 builder (which threads the never-read `seen_in_doc`
set) and the test-cell builder produce identical indexes whenever their
normalizers agree on every document; the `seen_in_doc` set has no effect. -/
theorem c10_step4_equals_test_builder (fA fB : String → List String)
    (docs : List String) (h : ∀ doc ∈ docs, fA doc = fB doc) :
    build_inverted_index_step4 fA docs = build_inverted_index fB docs :=
  buildAuxSeen_eq docs fA fB h [] 0

theorem c10_witness :
    build_inverted_index_step4 basic_tokenizer testDocs =
      build_inverted_index basic_tokenizer testDocs :=
  c10_step4_equals_test_builder basic_tokenizer basic_tokenizer testDocs
    (fun _ _ => rfl)

end InvIdx
